import Mathlib

/-!
# `EncryptedPrivateKeyInfo` codec (`src/pkcs8/src/private_key_info/encrypted.rs`)

A shallow embedding of the PKCS#8 `EncryptedPrivateKeyInfo` DER codec.

The repository file under verification defines (in Rust):

* `struct EncryptedPrivateKeyInfo { encryption_algorithm: EncryptionScheme, encrypted_data: &[u8] }`
* `TryFrom<der::Any>`: `any.sequence(|decoder| { encryption_algorithm: decoder.decode()?,
  encrypted_data: decoder.octet_string()?.as_bytes() })`
* `TryFrom<&[u8]>`: `Self::from_bytes(bytes)` (parse one value, convert, reject trailing bytes)
* `Message::fields`: `[&self.encryption_algorithm, &der::OctetString::new(self.encrypted_data)?]`,
  serialized by the generic engine as a SEQUENCE.

The generic DER engine (crate `der`) and the algorithm identifier type
(crate `pkcs5::EncryptionScheme`) are collaborators of this file that are
not among the given sources; they are modelled from the specification's
description of them (tag-length-value framing with canonical definite
lengths, sequence containers that tolerate no extra fields, an opaque
algorithm identifier holding an object identifier plus optional
parameters).  Bytes are `Nat`s in a `List`; machine-level byte bounds are
irrelevant to the framing logic and are not imposed.
-/

namespace Pkcs8Epki

/-- Error categories of the decode/encode pipeline, following the spec's
taxonomy: `structural` for ill-formed tag-length-value framing (truncated
input, bad length, trailing data), `shape` for a parsed value whose shape
does not match the schema (wrong tag), `scheme` for failures propagated
from the algorithm-identifier decoder. -/
inductive DerErr where
  | structural : DerErr
  | shape : DerErr
  | scheme : DerErr
deriving DecidableEq, Repr

/-- Modelled from the spec: the generic engine's abstract parsed value
(`der::Any`) — a tag byte together with the raw content bytes of the
value. -/
structure Any where
  tag : Nat
  value : List Nat
deriving DecidableEq, Repr

/-- Big-endian base-256 value of a byte list (most significant first). -/
def beToNat (bs : List Nat) : Nat :=
  bs.foldl (fun acc b => acc * 256 + b) 0

/-- Fuel-driven worker for `natToBE`; the fuel only needs to dominate the
number of base-256 digits, and `natToBE` passes `n` itself. -/
def natToBEFuel : Nat → Nat → List Nat
  | _, 0 => []
  | 0, _ + 1 => []
  | fuel + 1, n + 1 => natToBEFuel fuel ((n + 1) / 256) ++ [(n + 1) % 256]

/-- Big-endian base-256 digits of `n`, without leading zeros (`[]` for 0). -/
def natToBE (n : Nat) : List Nat := natToBEFuel n n

/-- Modelled from the spec: the generic engine's length parser.  Reads a
canonical definite-form DER length from the front of the input: one byte
below `0x80` (short form), or `0x80 + k` followed by `k` big-endian bytes
with no leading zero and a value that could not have used the short form.
The indefinite form (`0x80`) is rejected. -/
def parseLen : List Nat → Except DerErr (Nat × List Nat)
  | [] => .error .structural
  | b :: rest =>
    if b < 128 then .ok (b, rest)
    else if b = 128 then .error .structural
    else if b - 128 ≤ rest.length then
      if (rest.take (b - 128)).headD 0 ≠ 0 ∧ 128 ≤ beToNat (rest.take (b - 128)) then
        .ok (beToNat (rest.take (b - 128)), rest.drop (b - 128))
      else .error .structural
    else .error .structural

/-- Canonical DER encoding of a length: short form below 128, otherwise
`0x80 + k` followed by the `k` big-endian bytes of the value. -/
def encodeLen (n : Nat) : List Nat :=
  if n < 128 then [n] else (128 + (natToBE n).length) :: natToBE n

/-- Modelled from the spec: the generic engine's "parse one encoded value"
step.  Reads a tag byte, a canonical definite length, and exactly that many
content bytes; fails structurally when the input is exhausted or the
declared length exceeds the bytes actually supplied. -/
def parseAny : List Nat → Except DerErr (Any × List Nat)
  | [] => .error .structural
  | t :: rest =>
    match parseLen rest with
    | .error e => .error e
    | .ok (n, rest2) =>
      if n ≤ rest2.length then .ok (⟨t, rest2.take n⟩, rest2.drop n)
      else .error .structural

/-- Modelled from the spec: the generic engine's serializer for one value —
tag byte, canonical length of the content, content bytes. -/
def encodeAny (a : Any) : List Nat :=
  a.tag :: (encodeLen a.value.length ++ a.value)

/-- The tag byte of a constructed SEQUENCE. -/
def sequenceTag : Nat := 48

/-- The tag byte of a primitive OCTET STRING. -/
def octetStringTag : Nat := 4

/-- The tag byte of an OBJECT IDENTIFIER. -/
def oidTag : Nat := 6

/-- Modelled from the spec: the `pkcs5::EncryptionScheme` algorithm
identifier, a collaborator that is not among the given sources.  The spec
describes it as "an opaque, previously-decoded algorithm-identifier value
(structurally: an object identifier plus scheme-specific parameters)" that
this system holds and round-trips without interpreting. -/
structure EncryptionScheme where
  oid : List Nat
  params : Option Any
deriving DecidableEq, Repr

/-- Modelled from the spec: decoding an algorithm identifier from an
abstract value — a SEQUENCE holding an OBJECT IDENTIFIER and optional
parameters, with nothing after them.  Every failure of this collaborator
is its own (`scheme`) error, propagated verbatim per the spec. -/
def EncryptionScheme.tryFromAny (a : Any) : Except DerErr EncryptionScheme :=
  if a.tag = sequenceTag then
    match parseAny a.value with
    | .error _ => .error .scheme
    | .ok (a1, rest) =>
      if a1.tag = oidTag then
        match rest with
        | [] => .ok ⟨a1.value, none⟩
        | _ :: _ =>
          match parseAny rest with
          | .error _ => .error .scheme
          | .ok (a2, rest2) =>
            if rest2 = [] then .ok ⟨a1.value, some a2⟩ else .error .scheme
      else .error .scheme
  else .error .scheme

/-- Modelled from the spec: the abstract value an algorithm identifier
serializes to — the mirror image of `EncryptionScheme.tryFromAny`. -/
def EncryptionScheme.toAny (s : EncryptionScheme) : Any :=
  ⟨sequenceTag, encodeAny ⟨oidTag, s.oid⟩ ++
    (match s.params with
     | none => []
     | some p => encodeAny p)⟩

/-- The algorithm identifier's own encoder (`Encodable` in the source);
per the spec it can only fail for reasons internal to the scheme type, and
the modelled scheme has none. -/
def EncryptionScheme.encodeBytes (s : EncryptionScheme) : Except DerErr (List Nat) :=
  .ok (encodeAny s.toAny)

/-- `EncryptedPrivateKeyInfo` (`encrypted.rs`, lines 39–46): a PKCS#5
encryption scheme identifier together with the encrypted private key
bytes. -/
structure EncryptedPrivateKeyInfo where
  encryption_algorithm : EncryptionScheme
  encrypted_data : List Nat
deriving DecidableEq, Repr

/-- `TryFrom<der::Any> for EncryptedPrivateKeyInfo` (`encrypted.rs`, lines
56–67): require a SEQUENCE, then inside it decode the encryption scheme,
then a primitive OCTET STRING whose content becomes `encrypted_data`; the
sequence combinator rejects any bytes left over after the two fields. -/
def EncryptedPrivateKeyInfo.tryFromAny (a : Any) :
    Except DerErr EncryptedPrivateKeyInfo :=
  if a.tag = sequenceTag then
    match parseAny a.value with
    | .error e => .error e
    | .ok (a1, r1) =>
      match EncryptionScheme.tryFromAny a1 with
      | .error e => .error e
      | .ok alg =>
        match parseAny r1 with
        | .error e => .error e
        | .ok (a2, r2) =>
          if a2.tag = octetStringTag then
            if r2 = [] then .ok ⟨alg, a2.value⟩ else .error .structural
          else .error .shape
  else .error .shape

/-- `TryFrom<&[u8]> for EncryptedPrivateKeyInfo` (`encrypted.rs`, lines
48–54), via `Decodable::from_bytes`: parse one value from the slice,
convert it, and reject trailing bytes after the parsed value. -/
def EncryptedPrivateKeyInfo.fromBytes (bs : List Nat) :
    Except DerErr EncryptedPrivateKeyInfo :=
  match parseAny bs with
  | .error e => .error e
  | .ok (a, rest) =>
    match EncryptedPrivateKeyInfo.tryFromAny a with
    | .error e => .error e
    | .ok v => if rest = [] then .ok v else .error .structural

/-- Modelled from the spec: `der::OctetString::new` — construction of the
OCTET STRING field value from a byte slice.  Per the spec it "does not fail
for any ordinary non-empty or empty byte slice — ciphertext length has no
upper bound enforced here". -/
def octetStringNew (bs : List Nat) : Except DerErr Any :=
  .ok ⟨octetStringTag, bs⟩

/-- Concatenate the encodings of a field list, stopping at the first field
whose own encoder failed. -/
def concatFields : List (Except DerErr (List Nat)) → Except DerErr (List Nat)
  | [] => .ok []
  | f :: fs =>
    match f with
    | .error e => .error e
    | .ok b =>
      match concatFields fs with
      | .error e => .error e
      | .ok bs => .ok (b ++ bs)

/-- Modelled from the spec: the generic engine's sequence-encoding step
used by the blanket `Message` → `Encodable` implementation — encode each
field, concatenate, and wrap the result in a SEQUENCE tag-length frame
(computing and prepending the aggregate length). -/
def encodeMessage (fields : List (Except DerErr (List Nat))) :
    Except DerErr (List Nat) :=
  match concatFields fields with
  | .error e => .error e
  | .ok content => .ok (encodeAny ⟨sequenceTag, content⟩)

/-- `Message for EncryptedPrivateKeyInfo` (`encrypted.rs`, lines 69–79):
the field list is the encryption scheme followed by
`OctetString::new(encrypted_data)`, serialized as a SEQUENCE message. -/
def EncryptedPrivateKeyInfo.encode (v : EncryptedPrivateKeyInfo) :
    Except DerErr (List Nat) :=
  encodeMessage
    [v.encryption_algorithm.encodeBytes,
     (octetStringNew v.encrypted_data).map encodeAny]

/-! ## Analysis-side definitions

The decoder above consumes its input incrementally, exactly as the source
does.  To state the spec's error-condition claims independently of that
traversal order, the following definitions describe an input byte list
declaratively: parse it as one exact value, split a sequence body into all
of its sub-values, and read off the properties the spec's conditions name.
-/

/-- `true` on a decoder success. -/
def isOkE {α : Type} : Except DerErr α → Bool
  | .ok _ => true
  | .error _ => false

/-- Parse a byte list as exactly one value: one tag-length-value frame
with nothing after it. -/
def parseExact (bs : List Nat) : Except DerErr Any :=
  match parseAny bs with
  | .error e => .error e
  | .ok (a, rest) => if rest = [] then .ok a else .error .structural

/-- Fuel-driven worker for `seqParts`.  Each parsed value consumes at
least its tag byte, so fuel equal to the byte count always suffices. -/
def seqPartsFuel : Nat → List Nat → Option (List Any)
  | _, [] => some []
  | 0, _ :: _ => none
  | fuel + 1, b :: rest =>
    match parseAny (b :: rest) with
    | .error _ => none
    | .ok (a, after) => (seqPartsFuel fuel after).map (a :: ·)

/-- Split a sequence body into the list of all its sub-values, `none` when
the body is not a concatenation of well-formed values. -/
def seqParts (bs : List Nat) : Option (List Any) :=
  seqPartsFuel bs.length bs

/-- The sub-values of the input, when the input is exactly one well-formed
SEQUENCE whose body splits into well-formed sub-values. -/
def seqValues (bs : List Nat) : Option (List Any) :=
  match parseExact bs with
  | .error _ => none
  | .ok a => if a.tag = sequenceTag then seqParts a.value else none

/-- The input is a single well-formed DER value: it parses as exactly one
tag-length-value frame and, when that frame is a SEQUENCE, its body splits
into well-formed sub-values. -/
def isSingleWellFormed (bs : List Nat) : Bool :=
  match parseExact bs with
  | .error _ => false
  | .ok a => if a.tag = sequenceTag then (seqParts a.value).isSome else true

/-- The outer value parses but is not tagged as a SEQUENCE. -/
def outerNotSequence (bs : List Nat) : Bool :=
  match parseExact bs with
  | .error _ => false
  | .ok a => a.tag ≠ sequenceTag

/-- The sequence contains fewer than two sub-values. -/
def fewerThanTwoValues (bs : List Nat) : Bool :=
  match seqValues bs with
  | none => false
  | some l => l.length < 2

/-- The first sub-value is rejected by the algorithm-identifier decoder. -/
def firstValueRejected (bs : List Nat) : Bool :=
  match seqValues bs with
  | some (a1 :: _) => !(isOkE (EncryptionScheme.tryFromAny a1))
  | _ => false

/-- The second sub-value is not a primitive OCTET STRING. -/
def secondValueNotOctetString (bs : List Nat) : Bool :=
  match seqValues bs with
  | some (_ :: a2 :: _) => a2.tag ≠ octetStringTag
  | _ => false

/-- The sequence contains sub-values beyond the two expected fields. -/
def extraValuesAfterSecond (bs : List Nat) : Bool :=
  match seqValues bs with
  | none => false
  | some l => 2 < l.length

/-- The composed decode path the implicit-claim comparison uses: parse the
slice as a single complete abstract value, then convert it. -/
def decodeViaAny (bs : List Nat) : Except DerErr EncryptedPrivateKeyInfo :=
  match parseExact bs with
  | .error e => .error e
  | .ok a => EncryptedPrivateKeyInfo.tryFromAny a

/-! ## Framing lemmas for the modelled engine -/

theorem beToNat_snoc (xs : List Nat) (r : Nat) :
    beToNat (xs ++ [r]) = beToNat xs * 256 + r := by
  simp [beToNat, List.foldl_append]

theorem natToBEFuel_zero (f : Nat) : natToBEFuel f 0 = [] := by
  cases f <;> rfl

theorem beToNat_natToBEFuel : ∀ f n, n ≤ f → beToNat (natToBEFuel f n) = n := by
  intro f
  induction f with
  | zero =>
    intro n hn
    have h0 : n = 0 := Nat.le_zero.mp hn
    subst h0
    rfl
  | succ f ih =>
    intro n hn
    match n with
    | 0 => rfl
    | m + 1 =>
      have hq : (m + 1) / 256 ≤ f := by omega
      simp only [natToBEFuel]
      rw [beToNat_snoc, ih _ hq]
      omega

theorem beToNat_natToBE (n : Nat) : beToNat (natToBE n) = n :=
  beToNat_natToBEFuel n n le_rfl

theorem headD_append_of_ne_nil {xs : List Nat} (ys : List Nat) (h : xs ≠ [])
    (d : Nat) : (xs ++ ys).headD d = xs.headD d := by
  cases xs with
  | nil => exact absurd rfl h
  | cons a tl => rfl

theorem natToBEFuel_headD : ∀ f n, 1 ≤ n → n ≤ f →
    (natToBEFuel f n).headD 0 ≠ 0 := by
  intro f
  induction f with
  | zero => intro n h1 h2; omega
  | succ f ih =>
    intro n h1 h2
    obtain ⟨m, rfl⟩ : ∃ m, n = m + 1 := ⟨n - 1, by omega⟩
    simp only [natToBEFuel]
    by_cases hq : (m + 1) / 256 = 0
    · rw [hq, natToBEFuel_zero, List.nil_append]
      have hlt : m + 1 < 256 := by omega
      simp [Nat.mod_eq_of_lt hlt]
    · have h1' : 1 ≤ (m + 1) / 256 := Nat.one_le_iff_ne_zero.mpr hq
      have h2' : (m + 1) / 256 ≤ f := by omega
      have hne : natToBEFuel f ((m + 1) / 256) ≠ [] := by
        intro hnil
        have hh := ih _ h1' h2'
        rw [hnil] at hh
        exact hh rfl
      rw [headD_append_of_ne_nil _ hne]
      exact ih _ h1' h2'

theorem natToBE_headD {n : Nat} (h : 1 ≤ n) : (natToBE n).headD 0 ≠ 0 :=
  natToBEFuel_headD n n h le_rfl

theorem natToBE_ne_nil {n : Nat} (h : 1 ≤ n) : natToBE n ≠ [] := by
  intro hnil
  have hh := natToBE_headD h
  rw [hnil] at hh
  exact hh rfl

theorem parseLen_encodeLen (n : Nat) (rest : List Nat) :
    parseLen (encodeLen n ++ rest) = .ok (n, rest) := by
  by_cases h : n < 128
  · simp [encodeLen, h, parseLen]
  · have h1 : 1 ≤ n := by omega
    have hne := natToBE_ne_nil h1
    have hL : 1 ≤ (natToBE n).length := List.length_pos.mpr hne
    have hcons : encodeLen n ++ rest
        = (128 + (natToBE n).length) :: (natToBE n ++ rest) := by
      simp [encodeLen, if_neg h]
    rw [hcons]
    simp only [parseLen]
    rw [if_neg (by omega), if_neg (by omega)]
    have hk : 128 + (natToBE n).length - 128 = (natToBE n).length := by omega
    rw [hk, if_pos (by simp), List.take_left, List.drop_left, beToNat_natToBE,
      if_pos ⟨natToBE_headD h1, by omega⟩]

theorem parseAny_encodeAny (a : Any) (rest : List Nat) :
    parseAny (encodeAny a ++ rest) = .ok (a, rest) := by
  have hcons : encodeAny a ++ rest
      = a.tag :: (encodeLen a.value.length ++ (a.value ++ rest)) := by
    simp [encodeAny]
  rw [hcons]
  simp only [parseAny, parseLen_encodeLen]
  rw [if_pos (by simp), List.take_left, List.drop_left]

theorem parseAny_encodeAny_nil (a : Any) : parseAny (encodeAny a) = .ok (a, []) := by
  have hh := parseAny_encodeAny a []
  rwa [List.append_nil] at hh

theorem encodeAny_ne_nil (a : Any) : encodeAny a ≠ [] := by
  simp [encodeAny]

theorem parseLen_rest_length {bs : List Nat} {n : Nat} {rest : List Nat}
    (h : parseLen bs = .ok (n, rest)) : rest.length < bs.length := by
  match bs with
  | [] => simp [parseLen] at h
  | b :: tl =>
    simp only [parseLen] at h
    split at h
    · simp only [Except.ok.injEq, Prod.mk.injEq] at h
      obtain ⟨-, hr⟩ := h
      subst hr
      simp
    · split at h
      · simp at h
      · split at h
        · split at h
          · simp only [Except.ok.injEq, Prod.mk.injEq] at h
            obtain ⟨-, hr⟩ := h
            subst hr
            simp only [List.length_drop, List.length_cons]
            omega
          · simp at h
        · simp at h

theorem parseAny_rest_length {bs : List Nat} {a : Any} {rest : List Nat}
    (h : parseAny bs = .ok (a, rest)) : rest.length < bs.length := by
  match bs with
  | [] => simp [parseAny] at h
  | t :: tl =>
    simp only [parseAny] at h
    split at h
    · simp at h
    · rename_i n rest2 hpl
      split at h
      · simp only [Except.ok.injEq, Prod.mk.injEq] at h
        obtain ⟨-, hr⟩ := h
        subst hr
        have hlt := parseLen_rest_length hpl
        simp only [List.length_drop, List.length_cons] at hlt ⊢
        omega
      · simp at h

/-! ## Splitting a sequence body into all of its sub-values -/

theorem seqPartsFuel_succ : ∀ f bs, bs.length ≤ f →
    seqPartsFuel (f + 1) bs = seqPartsFuel f bs := by
  intro f
  induction f with
  | zero =>
    intro bs h
    have h0 : bs = [] := List.length_eq_zero.mp (Nat.le_zero.mp h)
    subst h0
    rfl
  | succ f ih =>
    intro bs h
    match bs with
    | [] => rfl
    | b :: tl =>
      simp only [seqPartsFuel]
      cases hpa : parseAny (b :: tl) with
      | error e => simp only [hpa]
      | ok p =>
        obtain ⟨a, after⟩ := p
        have hafter : after.length ≤ f := by
          have hlt := parseAny_rest_length hpa
          simp only [List.length_cons] at hlt h
          omega
        simp only [hpa]
        rw [ih after hafter]

theorem seqPartsFuel_eq_seqParts : ∀ f bs, bs.length ≤ f →
    seqPartsFuel f bs = seqParts bs := by
  intro f bs h
  obtain ⟨d, hd⟩ : ∃ d, f = bs.length + d := ⟨f - bs.length, by omega⟩
  subst hd
  clear h
  induction d with
  | zero => rfl
  | succ d ih =>
    have hh : bs.length + (d + 1) = (bs.length + d) + 1 := by omega
    rw [hh, seqPartsFuel_succ (bs.length + d) bs (by omega), ih]

theorem seqParts_nil : seqParts [] = some [] := rfl

theorem seqParts_cons_of_ok {bs : List Nat} {a : Any} {after : List Nat}
    (h : parseAny bs = .ok (a, after)) :
    seqParts bs = (seqParts after).map (a :: ·) := by
  match bs with
  | [] => simp [parseAny] at h
  | b :: tl =>
    have hafter : after.length ≤ tl.length := by
      have hlt := parseAny_rest_length h
      simp only [List.length_cons] at hlt
      omega
    show seqPartsFuel (b :: tl).length (b :: tl) = _
    simp only [List.length_cons, seqPartsFuel, h]
    rw [seqPartsFuel_eq_seqParts tl.length after hafter]

theorem seqParts_none_of_error {bs : List Nat} {e : DerErr}
    (h : parseAny bs = .error e) (hne : bs ≠ []) : seqParts bs = none := by
  match bs with
  | [] => exact absurd rfl hne
  | b :: tl =>
    show seqPartsFuel (b :: tl).length (b :: tl) = none
    simp only [List.length_cons, seqPartsFuel, h]

/-! ## Round-trip lemmas -/

theorem EncryptionScheme.tryFromAny_toAny (s : EncryptionScheme) :
    EncryptionScheme.tryFromAny s.toAny = .ok s := by
  obtain ⟨oid, params⟩ := s
  cases params with
  | none =>
    simp only [EncryptionScheme.toAny, EncryptionScheme.tryFromAny, List.append_nil]
    rw [if_pos trivial, parseAny_encodeAny_nil]
    simp [oidTag]
  | some p =>
    simp only [EncryptionScheme.toAny, EncryptionScheme.tryFromAny]
    rw [if_pos trivial, parseAny_encodeAny]
    simp only [oidTag, if_pos rfl]
    cases hc : encodeAny p with
    | nil => exact absurd hc (encodeAny_ne_nil p)
    | cons b tl =>
      rw [← hc, parseAny_encodeAny_nil]
      rw [hc]
      simp

theorem EncryptedPrivateKeyInfo.encode_eq (v : EncryptedPrivateKeyInfo) :
    v.encode = .ok (encodeAny ⟨sequenceTag,
      encodeAny v.encryption_algorithm.toAny ++
        encodeAny ⟨octetStringTag, v.encrypted_data⟩⟩) := by
  simp [EncryptedPrivateKeyInfo.encode, encodeMessage, concatFields,
    EncryptionScheme.encodeBytes, octetStringNew, Except.map]

theorem EncryptedPrivateKeyInfo.tryFromAny_mk (s : EncryptionScheme)
    (d : List Nat) :
    EncryptedPrivateKeyInfo.tryFromAny
      ⟨sequenceTag, encodeAny s.toAny ++ encodeAny ⟨octetStringTag, d⟩⟩
      = .ok ⟨s, d⟩ := by
  simp only [EncryptedPrivateKeyInfo.tryFromAny]
  rw [if_pos trivial, parseAny_encodeAny]
  simp only [EncryptionScheme.tryFromAny_toAny, parseAny_encodeAny_nil]
  simp [octetStringTag]

theorem EncryptedPrivateKeyInfo.fromBytes_encodeAny_mk (s : EncryptionScheme)
    (d : List Nat) :
    EncryptedPrivateKeyInfo.fromBytes
      (encodeAny ⟨sequenceTag, encodeAny s.toAny ++ encodeAny ⟨octetStringTag, d⟩⟩)
      = .ok ⟨s, d⟩ := by
  simp only [EncryptedPrivateKeyInfo.fromBytes, parseAny_encodeAny_nil,
    EncryptedPrivateKeyInfo.tryFromAny_mk]
  simp

theorem seqParts_length_pos {bs : List Nat} {l : List Any}
    (h : seqParts bs = some l) (hne : bs ≠ []) : 0 < l.length := by
  cases hpa : parseAny bs with
  | error e =>
    rw [seqParts_none_of_error hpa hne] at h
    simp at h
  | ok p =>
    obtain ⟨a, after⟩ := p
    rw [seqParts_cons_of_ok hpa] at h
    rw [Option.map_eq_some'] at h
    obtain ⟨l', -, hl⟩ := h
    rw [← hl]
    simp

theorem seqParts_eq_nil_elim {bs : List Nat} (h : seqParts bs = some []) :
    bs = [] := by
  by_contra hne
  cases hpa : parseAny bs with
  | error e =>
    rw [seqParts_none_of_error hpa hne] at h
    simp at h
  | ok p =>
    obtain ⟨a, after⟩ := p
    rw [seqParts_cons_of_ok hpa, Option.map_eq_some'] at h
    obtain ⟨l', -, hl⟩ := h
    simp at hl

theorem seqParts_eq_cons {bs : List Nat} {x : Any} {l : List Any}
    (h : seqParts bs = some (x :: l)) :
    ∃ after, parseAny bs = .ok (x, after) ∧ seqParts after = some l := by
  cases hpa : parseAny bs with
  | error e =>
    by_cases hne : bs = []
    · subst hne
      simp [seqParts_nil] at h
    · rw [seqParts_none_of_error hpa hne] at h
      simp at h
  | ok p =>
    obtain ⟨a, after⟩ := p
    rw [seqParts_cons_of_ok hpa, Option.map_eq_some'] at h
    obtain ⟨l', hl', heq⟩ := h
    simp only [List.cons.injEq] at heq
    obtain ⟨hax, hll⟩ := heq
    subst hax
    subst hll
    exact ⟨after, rfl, hl'⟩

/-! ## Characterizing decode success -/

theorem parseExact_ok_iff {bs : List Nat} {a : Any} :
    parseExact bs = .ok a ↔ parseAny bs = .ok (a, []) := by
  constructor
  · intro h
    simp only [parseExact] at h
    split at h
    · simp at h
    · rename_i a' rest hpa
      split at h
      · rename_i hrest
        subst hrest
        simp only [Except.ok.injEq] at h
        subst h
        exact hpa
      · simp at h
  · intro h
    simp [parseExact, h]

theorem fromBytes_ok_iff {bs : List Nat} {v : EncryptedPrivateKeyInfo} :
    EncryptedPrivateKeyInfo.fromBytes bs = .ok v ↔
      ∃ a, parseAny bs = .ok (a, []) ∧
        EncryptedPrivateKeyInfo.tryFromAny a = .ok v := by
  constructor
  · intro h
    simp only [EncryptedPrivateKeyInfo.fromBytes] at h
    split at h
    · simp at h
    · rename_i a rest hpa
      split at h
      · simp at h
      · rename_i v' htf
        split at h
        · rename_i hrest
          subst hrest
          simp only [Except.ok.injEq] at h
          subst h
          exact ⟨a, hpa, htf⟩
        · simp at h
  · intro ⟨a, hpa, htf⟩
    simp [EncryptedPrivateKeyInfo.fromBytes, hpa, htf]

theorem tryFromAny_ok_iff {a : Any} {v : EncryptedPrivateKeyInfo} :
    EncryptedPrivateKeyInfo.tryFromAny a = .ok v ↔
      a.tag = sequenceTag ∧ ∃ a1 r1 a2,
        parseAny a.value = .ok (a1, r1) ∧
        EncryptionScheme.tryFromAny a1 = .ok v.encryption_algorithm ∧
        parseAny r1 = .ok (a2, []) ∧
        a2.tag = octetStringTag ∧
        a2.value = v.encrypted_data := by
  constructor
  · intro h
    simp only [EncryptedPrivateKeyInfo.tryFromAny] at h
    split at h
    · rename_i htag
      refine ⟨htag, ?_⟩
      split at h
      · simp at h
      · rename_i a1 r1 hpa1
        split at h
        · simp at h
        · rename_i alg hsch
          split at h
          · simp at h
          · rename_i a2 r2 hpa2
            split at h
            · rename_i htag2
              split at h
              · rename_i hr2
                subst hr2
                simp only [Except.ok.injEq] at h
                subst h
                exact ⟨a1, r1, a2, hpa1, hsch, hpa2, htag2, rfl⟩
              · simp at h
            · simp at h
    · simp at h
  · intro ⟨htag, a1, r1, a2, hpa1, hsch, hpa2, htag2, hval⟩
    cases v with
    | mk alg d =>
      simp only at hsch hval
      subst hval
      simp [EncryptedPrivateKeyInfo.tryFromAny, if_pos htag, hpa1, hsch, hpa2, htag2]

theorem isOkE_eq_true_iff {α : Type} {x : Except DerErr α} :
    isOkE x = true ↔ ∃ v, x = .ok v := by
  cases x <;> simp [isOkE]

theorem isOkE_eq_false_iff {α : Type} {x : Except DerErr α} :
    isOkE x = false ↔ ∃ e, x = .error e := by
  cases x <;> simp [isOkE]

/-- Decode succeeds exactly when every condition of the error enumeration
(including the extra-sub-values one) is absent. -/
theorem fromBytes_isOk_char (bs : List Nat) :
    isOkE (EncryptedPrivateKeyInfo.fromBytes bs) = true ↔
      isSingleWellFormed bs = true ∧
      outerNotSequence bs = false ∧
      fewerThanTwoValues bs = false ∧
      firstValueRejected bs = false ∧
      secondValueNotOctetString bs = false ∧
      extraValuesAfterSecond bs = false := by
  constructor
  · intro h
    rw [isOkE_eq_true_iff] at h
    obtain ⟨v, hv⟩ := h
    rw [fromBytes_ok_iff] at hv
    obtain ⟨a, hpa, htf⟩ := hv
    rw [tryFromAny_ok_iff] at htf
    obtain ⟨htag, a1, r1, a2, hpa1, hsch, hpa2, htag2, hval⟩ := htf
    have hpe : parseExact bs = .ok a := parseExact_ok_iff.mpr hpa
    have hparts : seqParts a.value = some [a1, a2] := by
      rw [seqParts_cons_of_ok hpa1, seqParts_cons_of_ok hpa2, seqParts_nil]
      rfl
    have hsv : seqValues bs = some [a1, a2] := by
      simp [seqValues, hpe, htag, hparts]
    refine ⟨?_, ?_, ?_, ?_, ?_, ?_⟩
    · simp [isSingleWellFormed, hpe, htag, hparts]
    · simp [outerNotSequence, hpe, htag]
    · simp [fewerThanTwoValues, hsv]
    · simp [firstValueRejected, hsv, hsch, isOkE]
    · simp [secondValueNotOctetString, hsv, htag2]
    · simp [extraValuesAfterSecond, hsv]
  · intro ⟨h1, h2, h3, h4, h5, h6⟩
    cases hpe : parseExact bs with
    | error e => simp [isSingleWellFormed, hpe] at h1
    | ok a =>
      by_cases htag : a.tag = sequenceTag
      · cases hparts : seqParts a.value with
        | none => simp [isSingleWellFormed, hpe, htag, hparts] at h1
        | some l =>
          have hsv : seqValues bs = some l := by
            simp [seqValues, hpe, htag, hparts]
          have hge : ¬ l.length < 2 := by
            simp only [fewerThanTwoValues, hsv] at h3
            simpa using h3
          have hle : ¬ 2 < l.length := by
            simp only [extraValuesAfterSecond, hsv] at h6
            simpa using h6
          have hlen : l.length = 2 := by omega
          obtain ⟨a1, a2, rfl⟩ := List.length_eq_two.mp hlen
          obtain ⟨r1, hpa1, hrest1⟩ := seqParts_eq_cons hparts
          obtain ⟨r2, hpa2, hrest2⟩ := seqParts_eq_cons hrest1
          have hr2 : r2 = [] := seqParts_eq_nil_elim hrest2
          subst hr2
          have htag2 : a2.tag = octetStringTag := by
            simp only [secondValueNotOctetString, hsv] at h5
            simpa using h5
          have hsch : isOkE (EncryptionScheme.tryFromAny a1) = true := by
            simp only [firstValueRejected, hsv] at h4
            simpa using h4
          rw [isOkE_eq_true_iff] at hsch
          obtain ⟨alg, halg⟩ := hsch
          rw [isOkE_eq_true_iff]
          refine ⟨⟨alg, a2.value⟩, ?_⟩
          rw [fromBytes_ok_iff]
          exact ⟨a, parseExact_ok_iff.mp hpe,
            tryFromAny_ok_iff.mpr ⟨htag, a1, r1, a2, hpa1, halg, hpa2, htag2, rfl⟩⟩
      · simp [outerNotSequence, hpe, htag] at h2

theorem decodeViaAny_ok_iff {bs : List Nat} {v : EncryptedPrivateKeyInfo} :
    decodeViaAny bs = .ok v ↔
      ∃ a, parseAny bs = .ok (a, []) ∧
        EncryptedPrivateKeyInfo.tryFromAny a = .ok v := by
  constructor
  · intro h
    simp only [decodeViaAny] at h
    split at h
    · simp at h
    · rename_i a hpe
      exact ⟨a, parseExact_ok_iff.mp hpe, h⟩
  · intro ⟨a, hpa, htf⟩
    simp [decodeViaAny, parseExact_ok_iff.mpr hpa, htf]

/-! ## The claims -/

/-- C1: for every `EncryptedPrivateKeyInfo` value (any decodable
`EncryptionScheme` paired with any byte list as `encrypted_data`), encoding
via the `Message` implementation and then decoding the produced bytes via
`TryFrom<&[u8]>` succeeds and returns a value with the same
`encryption_algorithm` and the same `encrypted_data` bytes. -/
theorem spec_C1_roundtrip (alg : EncryptionScheme) (data : List Nat) :
    ∃ bs, EncryptedPrivateKeyInfo.encode ⟨alg, data⟩ = .ok bs ∧
      EncryptedPrivateKeyInfo.fromBytes bs = .ok ⟨alg, data⟩ :=
  ⟨_, EncryptedPrivateKeyInfo.encode_eq ⟨alg, data⟩,
    EncryptedPrivateKeyInfo.fromBytes_encodeAny_mk alg data⟩

/-- C2 (counterexample to the claim as stated): on the bytes of a
well-formed SEQUENCE holding a valid scheme, a primitive OCTET STRING and
one extra trailing NULL sub-value, none of the claim's five error
conditions holds, yet decode fails. -/
theorem spec_C2_counterexample :
    isSingleWellFormed [48, 9, 48, 3, 6, 1, 42, 4, 0, 5, 0] = true ∧
    outerNotSequence [48, 9, 48, 3, 6, 1, 42, 4, 0, 5, 0] = false ∧
    fewerThanTwoValues [48, 9, 48, 3, 6, 1, 42, 4, 0, 5, 0] = false ∧
    firstValueRejected [48, 9, 48, 3, 6, 1, 42, 4, 0, 5, 0] = false ∧
    secondValueNotOctetString [48, 9, 48, 3, 6, 1, 42, 4, 0, 5, 0] = false ∧
    isOkE (EncryptedPrivateKeyInfo.fromBytes [48, 9, 48, 3, 6, 1, 42, 4, 0, 5, 0])
      = false := by
  refine ⟨by decide, by decide, by decide, by decide, by decide, by decide⟩

/-- C2 (amended): decode via `TryFrom<&[u8]>` returns an error if and only
if the input is not a single well-formed DER value, or the outer value is
not a SEQUENCE, or the sequence contains fewer than two sub-values, or the
first sub-value is rejected by the `EncryptionScheme` decoder, or the
second sub-value is not a primitive OCTET STRING, or the sequence contains
extra sub-values after the second; otherwise decode succeeds. -/
theorem spec_C2_error_iff (bs : List Nat) :
    isOkE (EncryptedPrivateKeyInfo.fromBytes bs) = false ↔
      (isSingleWellFormed bs = false ∨ outerNotSequence bs = true ∨
       fewerThanTwoValues bs = true ∨ firstValueRejected bs = true ∨
       secondValueNotOctetString bs = true ∨
       extraValuesAfterSecond bs = true) := by
  have h := fromBytes_isOk_char bs
  constructor
  · intro hf
    by_contra hc
    push_neg at hc
    obtain ⟨c1, c2, c3, c4, c5, c6⟩ := hc
    simp only [ne_eq, Bool.not_eq_false] at c1
    simp only [ne_eq, Bool.not_eq_true] at c2 c3 c4 c5 c6
    have hok := h.mpr ⟨c1, c2, c3, c4, c5, c6⟩
    rw [hok] at hf
    exact absurd hf (by simp)
  · intro hd
    cases hok : isOkE (EncryptedPrivateKeyInfo.fromBytes bs) with
    | false => rfl
    | true =>
      obtain ⟨c1, c2, c3, c4, c5, c6⟩ := h.mp hok
      rcases hd with hd | hd | hd | hd | hd | hd <;> simp_all

/-- C2 (witness): the amended equivalence applied to a concrete
non-SEQUENCE input (a NULL value). -/
theorem spec_C2_witness :
    isOkE (EncryptedPrivateKeyInfo.fromBytes [5, 0]) = false :=
  (spec_C2_error_iff [5, 0]).mpr (Or.inr (Or.inl (by decide)))

/-- C3: a well-formed SEQUENCE whose first sub-value encodes an arbitrary,
possibly unsupported algorithm identifier (any object identifier, any
parameters) and whose second sub-value is a primitive OCTET STRING decodes
successfully, storing the identifier opaquely in `encryption_algorithm`. -/
theorem spec_C3_opaque_scheme (oid : List Nat) (params : Option Any)
    (data : List Nat) :
    EncryptedPrivateKeyInfo.fromBytes
      (encodeAny ⟨sequenceTag,
        encodeAny (EncryptionScheme.mk oid params).toAny ++
          encodeAny ⟨octetStringTag, data⟩⟩)
      = .ok ⟨⟨oid, params⟩, data⟩ :=
  EncryptedPrivateKeyInfo.fromBytes_encodeAny_mk ⟨oid, params⟩ data

/-- C4: encoding never fails because of the `encrypted_data` bytes — OCTET
STRING construction accepts the empty and every other byte list (no upper
bound on ciphertext length), and with the scheme sub-encoder succeeding the
whole encode succeeds. -/
theorem spec_C4_encode_total (alg : EncryptionScheme) (data : List Nat) :
    octetStringNew data = .ok ⟨octetStringTag, data⟩ ∧
    ∃ bs, EncryptedPrivateKeyInfo.encode ⟨alg, data⟩ = .ok bs :=
  ⟨rfl, _, EncryptedPrivateKeyInfo.encode_eq ⟨alg, data⟩⟩

/-- C5: a well-formed encoding with the two fields swapped (the OCTET
STRING first, the algorithm identifier second) always fails decode — the
scheme decoder rejects the octet-string-tagged first sub-value — and never
succeeds with swapped semantics. -/
theorem spec_C5_swapped_fields (s : EncryptionScheme) (data : List Nat) :
    EncryptedPrivateKeyInfo.fromBytes
      (encodeAny ⟨sequenceTag,
        encodeAny ⟨octetStringTag, data⟩ ++ encodeAny s.toAny⟩)
      = .error DerErr.scheme := by
  have h1 := parseAny_encodeAny ⟨octetStringTag, data⟩ (encodeAny s.toAny)
  simp only [octetStringTag, sequenceTag, oidTag] at h1 ⊢
  simp [EncryptedPrivateKeyInfo.fromBytes, parseAny_encodeAny_nil,
    EncryptedPrivateKeyInfo.tryFromAny, h1, EncryptionScheme.tryFromAny,
    sequenceTag, octetStringTag, oidTag]

/-- C6: for every scheme, the value with empty `encrypted_data` encodes
successfully (a zero-length OCTET STRING) and decodes back to itself —
emptiness is not an error in either direction. -/
theorem spec_C6_empty_ciphertext (s : EncryptionScheme) :
    ∃ bs, EncryptedPrivateKeyInfo.encode ⟨s, []⟩ = .ok bs ∧
      EncryptedPrivateKeyInfo.fromBytes bs = .ok ⟨s, []⟩ :=
  ⟨_, EncryptedPrivateKeyInfo.encode_eq ⟨s, []⟩,
    EncryptedPrivateKeyInfo.fromBytes_encodeAny_mk s []⟩

/-- C7: truncated input — an outer tag and length header whose declared
content length exceeds the bytes actually supplied — makes decode return a
structural decode error. -/
theorem spec_C7_truncated (t : Nat) (body : List Nat) (n : Nat)
    (content : List Nat) (hlen : parseLen body = .ok (n, content))
    (hshort : content.length < n) :
    EncryptedPrivateKeyInfo.fromBytes (t :: body) = .error DerErr.structural := by
  simp only [EncryptedPrivateKeyInfo.fromBytes, parseAny, hlen]
  rw [if_neg (by omega)]

/-- C7 (witness): an outer SEQUENCE header claiming 50 content bytes with
only 10 supplied fails with a structural error. -/
theorem spec_C7_witness :
    EncryptedPrivateKeyInfo.fromBytes (48 :: 50 :: List.replicate 10 0)
      = .error DerErr.structural :=
  spec_C7_truncated 48 (50 :: List.replicate 10 0) 50 (List.replicate 10 0)
    rfl (by decide)

/-- C8: the encoded output is one SEQUENCE frame whose content is exactly
the scheme's own encoding followed by the `encrypted_data` as a primitive
OCTET STRING, with the aggregate length computed and prepended. -/
theorem spec_C8_encode_structure (alg : EncryptionScheme) (data : List Nat) :
    EncryptedPrivateKeyInfo.encode ⟨alg, data⟩ =
      .ok (sequenceTag ::
        (encodeLen (encodeAny alg.toAny ++ encodeAny ⟨octetStringTag, data⟩).length ++
          (encodeAny alg.toAny ++ encodeAny ⟨octetStringTag, data⟩))) := by
  rw [EncryptedPrivateKeyInfo.encode_eq]
  rfl

/-- C9: decode and encode are deterministic pure functions — equal inputs
give equal results for both directions. -/
theorem spec_C9_deterministic (b1 b2 : List Nat)
    (v1 v2 : EncryptedPrivateKeyInfo) (hb : b1 = b2) (hv : v1 = v2) :
    EncryptedPrivateKeyInfo.fromBytes b1 = EncryptedPrivateKeyInfo.fromBytes b2 ∧
    EncryptedPrivateKeyInfo.encode v1 = EncryptedPrivateKeyInfo.encode v2 := by
  subst hb
  subst hv
  exact ⟨rfl, rfl⟩

/-- C9 (witness): the determinism theorem applied at a concrete byte list
and a concrete value. -/
theorem spec_C9_witness :
    EncryptedPrivateKeyInfo.fromBytes [48, 7, 48, 3, 6, 1, 42, 4, 0]
        = EncryptedPrivateKeyInfo.fromBytes [48, 7, 48, 3, 6, 1, 42, 4, 0] ∧
      EncryptedPrivateKeyInfo.encode ⟨⟨[42], none⟩, []⟩
        = EncryptedPrivateKeyInfo.encode ⟨⟨[42], none⟩, []⟩ :=
  spec_C9_deterministic _ _ _ _ rfl rfl

/-- C10: the byte-slice decode entry point (`TryFrom<&[u8]>`, through
`from_bytes`) succeeds exactly when parsing the slice as a single complete
abstract value followed by `TryFrom<der::Any>` succeeds, with the same
result; in particular it rejects inputs with trailing bytes after the
outer value. -/
theorem spec_C10_entry_points_agree (bs : List Nat) :
    (∀ v, EncryptedPrivateKeyInfo.fromBytes bs = .ok v ↔
      decodeViaAny bs = .ok v) ∧
    (∀ a rest, parseAny bs = .ok (a, rest) → rest ≠ [] →
      isOkE (EncryptedPrivateKeyInfo.fromBytes bs) = false) := by
  constructor
  · intro v
    rw [fromBytes_ok_iff, decodeViaAny_ok_iff]
  · intro a rest hpa hrest
    simp only [EncryptedPrivateKeyInfo.fromBytes, hpa]
    cases EncryptedPrivateKeyInfo.tryFromAny a with
    | error e => simp [isOkE]
    | ok v => simp [isOkE, hrest]

/-- C10 (witness): agreement on a concrete decodable input, and rejection
of the same input with one trailing byte. -/
theorem spec_C10_witness :
    EncryptedPrivateKeyInfo.fromBytes [48, 7, 48, 3, 6, 1, 42, 4, 0]
        = .ok ⟨⟨[42], none⟩, []⟩ ∧
      isOkE (EncryptedPrivateKeyInfo.fromBytes [48, 7, 48, 3, 6, 1, 42, 4, 0, 0])
        = false :=
  ⟨((spec_C10_entry_points_agree [48, 7, 48, 3, 6, 1, 42, 4, 0]).1
      ⟨⟨[42], none⟩, []⟩).mpr rfl,
    (spec_C10_entry_points_agree [48, 7, 48, 3, 6, 1, 42, 4, 0, 0]).2
      ⟨48, [48, 3, 6, 1, 42, 4, 0]⟩ [0] rfl (by decide)⟩

end Pkcs8Epki
